import Mathlib

/-!
Verification of the 2D pixel-buffer compositor and sprite-animation core
(`src/engine/src/types.rs`, `src/engine/src/animations.rs`).

Shallow embedding conventions:
* Rust `i32` coordinates are modelled as `Int`, `usize` tick counters as `Nat`
  (the programs under study never reach the 32/64-bit wrap boundary in the
  scenarios the claims quantify over; a `usize` subtraction that would
  underflow, an out-of-range index, a failed `assert!`, a division by zero and
  a `chunks_exact` with chunk size 0 are all Rust panics and are modelled by
  an `Option` result of `none`).
* `u8` channels are modelled as `Nat` (valid colors have channels `≤ 255`).
* The per-pixel `f32` source-over arithmetic of `Image::bitblt` is modelled
  with exact rationals (`roundQ`, `u8ofQ` below mirror `f32::round` and the
  saturating `as u8` cast).  On the inputs any claim evaluates it at (source
  alpha = 255, hence factors 1.0 and 0.0, which are exact in `f32`) the `f32`
  computation is exact, so the rational model agrees with it there.
* `HashMap` is modelled as an association list (the code only calls `get`).
-/

namespace Engine

/-- Rust `type Color = (u8, u8, u8, u8)`; fields `r g b a` stand for the
tuple components `.0 .1 .2 .3`. -/
structure Color where
  r : Nat
  g : Nat
  b : Nat
  a : Nat
deriving DecidableEq

/-- Default color handed to `List.getD`; never read on an in-bounds access. -/
def dColor : Color := ⟨0, 0, 0, 0⟩

/-- `Vec2i` of `types.rs` (two `i32` fields). -/
structure Vec2i where
  x : Int
  y : Int
deriving DecidableEq

/-- `impl Add for Vec2i`. -/
def Vec2i.add (v w : Vec2i) : Vec2i := ⟨v.x + w.x, v.y + w.y⟩

/-- `Rect` of `types.rs`. -/
structure Rect where
  pos : Vec2i
  sz : Vec2i
deriving DecidableEq

/-- `Rect::contains`: `self.pos.x <= other.pos.x && self.pos.y <= other.pos.y
&& obr.x <= br.x && obr.y <= br.y` where `br`/`obr` are `pos + sz`. -/
def Rect.contains (self other : Rect) : Prop :=
  self.pos.x ≤ other.pos.x ∧ self.pos.y ≤ other.pos.y ∧
  other.pos.x + other.sz.x ≤ self.pos.x + self.sz.x ∧
  other.pos.y + other.sz.y ≤ self.pos.y + self.sz.y

instance (s o : Rect) : Decidable (Rect.contains s o) := by
  unfold Rect.contains; infer_instance

/-- `Image` of `types.rs`: a flat row-major buffer plus a size. -/
structure Image where
  buffer : List Color
  sz : Vec2i
deriving DecidableEq

/-- The `Image` well-formedness the code relies on: non-negative dimensions
and `buffer.len() == sz.x * sz.y` (how `Image::new` and `from_file` build). -/
def Image.wf (img : Image) : Prop :=
  0 ≤ img.sz.x ∧ 0 ≤ img.sz.y ∧ img.buffer.length = (img.sz.x * img.sz.y).toNat

instance (img : Image) : Decidable (Image.wf img) := by
  unfold Image.wf; infer_instance

/-- The pixel at column `x`, row `y`: flat index `y * sz.x + x`
(meaningful for in-bounds coordinates). -/
def Image.pix (img : Image) (x y : Int) : Color :=
  img.buffer.getD (y * img.sz.x + x).toNat dColor

/-- `u8::saturating_add`. -/
def satAdd (a b : Nat) : Nat := min (a + b) 255

/-- `f32::round` (round half away from zero), on the non-negative rational
values the blit produces: `⌊q + 1/2⌋`. -/
def roundQ (q : ℚ) : Int := ⌊q + 1 / 2⌋

/-- Rust `as u8` on a rounded non-negative float: the saturating
float-to-integer cast. -/
def u8ofQ (q : ℚ) : Nat := (min (max (roundQ q) 0) 255).toNat

/-- One step of the source-over loop body of `Image::bitblt` (lines 153-166
of `types.rs`): `f` is the source pixel `from`, `t` the destination pixel
`to`. -/
def compositePixel (f t : Color) : Color :=
  let fa : ℚ := (f.a : ℚ) / 255
  let ta : ℚ := (t.a : ℚ) / 255
  { r := satAdd f.r (u8ofQ ((t.r : ℚ) * (1 - fa)))
    g := satAdd f.g (u8ofQ ((t.g : ℚ) * (1 - fa)))
    b := satAdd f.b (u8ofQ ((t.b : ℚ) * (1 - fa)))
    a := u8ofQ ((fa + ta * (1 - fa)) * 255) }

/-- `slice::fill c` on the index range `[i, i+n)`. -/
def fillRange (c : Color) : List Color → Nat → Nat → List Color
  | buf, _, 0 => buf
  | buf, i, n + 1 => fillRange c (buf.set i c) (i + 1) n

/-- One row of the blit loop: composite `n` consecutive source pixels
(starting at flat index `sOff`) onto `n` consecutive destination pixels
(starting at `dOff`). -/
def writeRow (srcBuf : List Color) : List Color → Nat → Nat → Nat → List Color
  | dstBuf, _, _, 0 => dstBuf
  | dstBuf, sOff, dOff, n + 1 =>
      writeRow srcBuf
        (dstBuf.set dOff
          (compositePixel (srcBuf.getD sOff dColor) (dstBuf.getD dOff dColor)))
        (sOff + 1) (dOff + 1) n

/-- The row loop of the blit: `rows` rows of `nCols` pixels, the source
offset advancing by `sPitch` and the destination offset by `dPitch` per
row (the `chunks_exact` / `zip` sweep of `Image::bitblt`). -/
def writeRows (srcBuf : List Color) (sPitch dPitch nCols : Nat) :
    List Color → Nat → Nat → Nat → List Color
  | dstBuf, _, _, 0 => dstBuf
  | dstBuf, sOff, dOff, m + 1 =>
      writeRows srcBuf sPitch dPitch nCols
        (writeRow srcBuf dstBuf sOff dOff nCols) (sOff + sPitch) (dOff + dPitch) m

/-- `Image::hline` (`types.rs` lines 99-104).  The three `assert!`s and the
slice bound are panic conditions, modelled as `none`. -/
def Image.hline (self : Image) (x0 x1 y : Nat) (c : Color) : Option Image :=
  if ¬ y < self.sz.y.toNat then none          -- assert!(y < self.sz.y as usize)
  else if ¬ x0 ≤ x1 then none                 -- assert!(x0 <= x1)
  else if ¬ x1 < self.sz.x.toNat then none    -- assert!(x1 < self.sz.x as usize)
  else if ¬ y * self.sz.x.toNat + x1 ≤ self.buffer.length then none  -- slice range
  else some { self with
    buffer := fillRange c self.buffer (y * self.sz.x.toNat + x0) (x1 - x0) }

/-- The per-row work of `Image::draw_rect`: for `n` rows starting at row `y`,
fill the flat index range `[y*w + px, y*w + px + sx)`.  The slice indexing
panics (modelled `none`) when the range is negative, inverted or past the
end of the buffer; no other bound is checked by the code. -/
def rowFillLoop (c : Color) (w px sx : Int) :
    List Color → Int → Nat → Option (List Color)
  | buf, _, 0 => some buf
  | buf, y, n + 1 =>
      let a := y * w + px
      let b := y * w + px + sx
      if 0 ≤ a ∧ a ≤ b ∧ b ≤ (buf.length : Int) then
        rowFillLoop c w px sx (fillRange c buf a.toNat (b - a).toNat) (y + 1) n
      else none

/-- `Image::draw_rect` (`types.rs` lines 90-97): no bounds check of its own,
just a per-row flat slice fill over rows `pos.y .. pos.y + sz.y`. -/
def Image.draw_rect (self : Image) (rect : Rect) (c : Color) : Option Image :=
  (rowFillLoop c self.sz.x rect.pos.x rect.sz.x self.buffer rect.pos.y
      rect.sz.y.toNat).map fun b => { self with buffer := b }

/-- `Image::bitblt` (`types.rs` lines 106-168).  `none` models a panic:
the `assert!(contains)`, a slice range that is inverted / negative (after
the `as usize` casts) / past the end, or `chunks_exact` with a zero chunk
size (a zero-width buffer).  The order of the `none` checks within one
blit is immaterial (all panics are observationally the same), so the four
slice/chunk conditions before the row loop are grouped; the `debug_assert!`s
are compiled out in release builds and are not modelled. -/
def Image.bitblt (self : Image) (src : Image) (fr : Rect) (tpos : Vec2i) :
    Option Image :=
  if ¬ Rect.contains ⟨⟨0, 0⟩, src.sz⟩ fr then none
  else if tpos.x + fr.sz.x < 0 ∨ self.sz.x ≤ tpos.x ∨
          tpos.y + fr.sz.y < 0 ∨ self.sz.y ≤ tpos.y then
    some self
  else
    let src_pitch := src.sz.x
    let dst_pitch := self.sz.x
    let y_skip := max tpos.y 0 - tpos.y
    let x_skip := max tpos.x 0 - tpos.x
    let y_count := min (tpos.y + fr.sz.y) self.sz.y - tpos.y
    let x_count := min (tpos.x + fr.sz.x) self.sz.x - tpos.x
    let from_start := src_pitch * (fr.pos.y + y_skip)
    let from_stop := src_pitch * (fr.pos.y + y_count)
    let to_start := dst_pitch * (tpos.y + y_skip)
    let to_stop := dst_pitch * (tpos.y + y_count)
    if ¬ (0 ≤ from_start ∧ from_start ≤ from_stop ∧
          from_stop ≤ (src.buffer.length : Int) ∧ src_pitch ≠ 0 ∧
          0 ≤ to_start ∧ to_start ≤ to_stop ∧
          to_stop ≤ (self.buffer.length : Int) ∧ dst_pitch ≠ 0) then none
    else
      let nRows := min ((from_stop - from_start) / src_pitch).toNat
                       ((to_stop - to_start) / dst_pitch).toNat
      if nRows = 0 then some self   -- the zipped row iterators are empty
      else
        let to_row_start := tpos.x + x_skip
        let to_row_stop := tpos.x + x_count
        let from_row_start := fr.pos.x + x_skip
        let from_row_stop := fr.pos.x + x_count
        if ¬ (0 ≤ to_row_start ∧ to_row_start ≤ to_row_stop ∧
              to_row_stop ≤ dst_pitch ∧
              0 ≤ from_row_start ∧ from_row_start ≤ from_row_stop ∧
              from_row_stop ≤ src_pitch) then none
        else
          let nCols := min (to_row_stop - to_row_start).toNat
                           (from_row_stop - from_row_start).toNat
          some { self with
            buffer := writeRows src.buffer src_pitch.toNat dst_pitch.toNat nCols
              self.buffer (from_start + from_row_start).toNat
              (to_start + to_row_start).toNat nRows }

/-- Modelled from the spec: action identifiers (`crate::sprite::Action`, not
in the repository's staged sources) are an externally defined enumerable,
equality-comparable type used only as a map key; modelled as `Nat`. -/
abbrev Action := Nat

/-- Modelled from the spec: character identifiers (`crate::sprite::Character`,
not in the staged sources); the field is unused by the core ("dont need
this"); modelled as `Nat`. -/
abbrev Character := Nat

/-- `Animation` of `animations.rs`. -/
structure Animation where
  frames : List Rect
  frame_timings : List Nat
  loops : Bool
deriving DecidableEq

/-- `Animation::initial_frame`: `self.frames[0]`, a panic on an empty clip. -/
def Animation.initial_frame (a : Animation) : Option Rect :=
  a.frames.get? 0

/-- `Animation::current_frame`: `self.frames[(now - start_time) / speedup_factor]`.
A `usize` subtraction underflow, a division by zero and an out-of-range
index are panics (`none`). -/
def Animation.current_frame (a : Animation) (start_time now speedup_factor : Nat) :
    Option Rect :=
  if now < start_time then none
  else if speedup_factor = 0 then none
  else a.frames.get? ((now - start_time) / speedup_factor)

/-- `Animation::is_finished`: `(now - start_time) / speedup_factor >= self.frames.len()`.
Same panic conditions as `current_frame` minus the indexing. -/
def Animation.is_finished (a : Animation) (start_time now speedup_factor : Nat) :
    Option Bool :=
  if now < start_time then none
  else if speedup_factor = 0 then none
  else some (decide (a.frames.length ≤ (now - start_time) / speedup_factor))

/-- `AnimationState` of `animations.rs`. -/
structure AnimationState where
  start_time : Nat
  now : Nat
  action : Action
  animation : Animation
deriving DecidableEq

/-- `AnimationState::tick`: advance `now`, reset it to 0 when the clip is
finished and loops, then look the current frame up.  Returns the frame and
the mutated state; `none` models a panic inside `is_finished` or
`current_frame`. -/
def AnimationState.tick (s : AnimationState) (speedup_factor : Nat) :
    Option (Rect × AnimationState) :=
  let now1 := s.now + 1
  match s.animation.is_finished s.start_time now1 speedup_factor with
  | none => none
  | some fin =>
    let now2 := if fin && s.animation.loops then 0 else now1
    match s.animation.current_frame s.start_time now2 speedup_factor with
    | none => none
    | some r => some (r, { s with now := now2 })

/-- `AnimationSet` of `animations.rs`; the `HashMap` is an association list. -/
structure AnimationSet where
  character : Character
  image : Image
  animations : List (Action × Animation)

/-- `AnimationSet::get_animation`: `self.animations.get(&action).unwrap()` —
the `unwrap` of a missing key is a panic (`none`). -/
def AnimationSet.get_animation (s : AnimationSet) (action : Action) :
    Option Animation :=
  s.animations.lookup action

/-- `AnimationSet::play_animation`: a fresh state at ticks 0/0 over the
looked-up clip; the `unwrap` of a missing key is a panic (`none`). -/
def AnimationSet.play_animation (s : AnimationSet) (action : Action) :
    Option AnimationState :=
  (s.animations.lookup action).map fun anim =>
    { start_time := 0, now := 0, action := action, animation := anim }

/-- `AnimationSet::get_image`. -/
def AnimationSet.get_image (s : AnimationSet) : Image := s.image

section Helper

variable {α : Type}

/-- Bridge: `List.getD` through `List.get?`. -/
theorem getD_via_get? (l : List Color) (n : Nat) (d : Color) :
    l.getD n d = (l.get? n).getD d := by
  simp [List.getD_eq_getElem?_getD, List.get?_eq_getElem?]

theorem get?_set_self (l : List Color) (i : Nat) (a : Color) (h : i < l.length) :
    (l.set i a).get? i = some a := by
  simp [List.get?_eq_getElem?, List.getElem?_set_self', List.getElem?_eq_getElem h]

theorem get?_set_other (l : List Color) {i j : Nat} (a : Color) (h : i ≠ j) :
    (l.set i a).get? j = l.get? j := by
  simp [List.get?_eq_getElem?, List.getElem?_set_ne h]

theorem fillRange_length (c : Color) (buf : List Color) (i n : Nat) :
    (fillRange c buf i n).length = buf.length := by
  induction n generalizing buf i with
  | zero => rfl
  | succ n ih => rw [fillRange, ih, List.length_set]

theorem writeRow_length (s : List Color) (b : List Color) (so do_ n : Nat) :
    (writeRow s b so do_ n).length = b.length := by
  induction n generalizing b so do_ with
  | zero => rfl
  | succ n ih => rw [writeRow, ih, List.length_set]

theorem writeRow_get?_outside (s : List Color) (b : List Color) (so do_ n k : Nat)
    (h : k < do_ ∨ do_ + n ≤ k) :
    (writeRow s b so do_ n).get? k = b.get? k := by
  induction n generalizing b so do_ with
  | zero => rfl
  | succ n ih =>
    rw [writeRow, ih _ _ _ (by omega)]
    exact get?_set_other _ _ (by omega)

theorem writeRow_get?_inside (s : List Color) (b : List Color) (so do_ n k : Nat)
    (h1 : do_ ≤ k) (h2 : k < do_ + n) (h3 : k < b.length) :
    (writeRow s b so do_ n).get? k
      = some (compositePixel (s.getD (so + (k - do_)) dColor) (b.getD k dColor)) := by
  induction n generalizing b so do_ with
  | zero => omega
  | succ n ih =>
    rw [writeRow]
    rcases Nat.eq_or_lt_of_le h1 with he | hlt
    · subst he
      rw [writeRow_get?_outside _ _ _ _ _ _ (.inl (by omega))]
      rw [get?_set_self _ _ _ h3]
      simp
    · rw [ih _ _ _ (by omega) (by omega) (by simpa using h3)]
      congr 2
      · congr 1
        omega
      · rw [getD_via_get?, get?_set_other _ _ (by omega), ← getD_via_get?]

theorem writeRows_length (s : List Color) (sp dp nc : Nat) (b : List Color)
    (so do_ m : Nat) : (writeRows s sp dp nc b so do_ m).length = b.length := by
  induction m generalizing b so do_ with
  | zero => rfl
  | succ m ih => rw [writeRows, ih, writeRow_length]

theorem writeRows_zero_cols (s : List Color) (sp dp : Nat) (b : List Color)
    (so do_ m : Nat) : writeRows s sp dp 0 b so do_ m = b := by
  induction m generalizing b so do_ with
  | zero => rfl
  | succ m ih => rw [writeRows, writeRow, ih]

theorem writeRows_get?_outside (s : List Color) (sp dp nc : Nat) (b : List Color)
    (so do_ m k : Nat) (h : ∀ i, i < m → k < do_ + i * dp ∨ do_ + i * dp + nc ≤ k) :
    (writeRows s sp dp nc b so do_ m).get? k = b.get? k := by
  induction m generalizing b so do_ with
  | zero => rfl
  | succ m ih =>
    rw [writeRows, ih]
    · exact writeRow_get?_outside _ _ _ _ _ _ (by simpa using h 0 (by omega))
    · intro i hi
      have := h (i + 1) (by omega)
      simp only [Nat.succ_mul, Nat.add_mul, Nat.one_mul] at this ⊢
      omega

theorem writeRows_get?_inside (s : List Color) (sp dp nc : Nat) (b : List Color)
    (so do_ m k i : Nat) (hi : i < m) (h1 : do_ + i * dp ≤ k)
    (h2 : k < do_ + i * dp + nc) (hcols : nc ≤ dp) (hk : k < b.length) :
    (writeRows s sp dp nc b so do_ m).get? k
      = some (compositePixel (s.getD (so + i * sp + (k - (do_ + i * dp))) dColor)
          (b.getD k dColor)) := by
  induction m generalizing b so do_ i with
  | zero => omega
  | succ m ih =>
    rw [writeRows]
    rcases Nat.eq_zero_or_pos i with hi0 | hipos
    · subst hi0
      simp only [Nat.zero_mul, Nat.add_zero] at h1 h2 ⊢
      rw [writeRows_get?_outside]
      · exact writeRow_get?_inside _ _ _ _ _ _ h1 h2 hk
      · intro t _
        left
        have : 1 * dp ≤ (t + 1) * dp := Nat.mul_le_mul_right dp (by omega)
        omega
    · obtain ⟨i', rfl⟩ : ∃ i', i = i' + 1 := ⟨i - 1, by omega⟩
      have hsep : do_ + nc ≤ k := by
        have : 1 * dp ≤ (i' + 1) * dp := Nat.mul_le_mul_right dp (by omega)
        omega
      rw [ih _ _ _ i' (by omega)]
      · congr 2
        · congr 1
          simp only [Nat.succ_mul] at *
          omega
        · rw [getD_via_get?, writeRow_get?_outside _ _ _ _ _ _ (.inr hsep),
            ← getD_via_get?]
      · simp only [Nat.succ_mul] at h1 ⊢
        omega
      · simp only [Nat.succ_mul] at h2 ⊢
        omega
      · rw [writeRow_length]
        exact hk

theorem fillRange_get?_outside (c : Color) (buf : List Color) (i n k : Nat)
    (h : k < i ∨ i + n ≤ k) : (fillRange c buf i n).get? k = buf.get? k := by
  induction n generalizing buf i with
  | zero => rfl
  | succ n ih =>
    rw [fillRange, ih _ _ (by omega)]
    exact get?_set_other _ _ (by omega)

theorem fillRange_get?_inside (c : Color) (buf : List Color) (i n k : Nat)
    (h1 : i ≤ k) (h2 : k < i + n) (h3 : k < buf.length) :
    (fillRange c buf i n).get? k = some c := by
  induction n generalizing buf i with
  | zero => omega
  | succ n ih =>
    rw [fillRange]
    rcases Nat.eq_or_lt_of_le h1 with he | hlt
    · subst he
      rw [fillRange_get?_outside _ _ _ _ _ (.inl (by omega))]
      exact get?_set_self _ _ _ h3
    · exact ih _ _ (by omega) (by omega) (by simpa using h3)

end Helper

/-- When the `contains` assertion holds, the placement is not rejected by the
early-return test, and both buffers have positive width, `bitblt` reaches the
row loop and returns the `writeRows` sweep with the clipped geometry. -/
theorem bitblt_eq_writeRows (dst src : Image) (fr : Rect) (tpos : Vec2i)
    (hwS : src.wf) (hwD : dst.wf) (hfx : 0 ≤ fr.sz.x) (hfy : 0 ≤ fr.sz.y)
    (hct : Rect.contains ⟨⟨0, 0⟩, src.sz⟩ fr)
    (hpS : 0 < src.sz.x) (hpD : 0 < dst.sz.x)
    (h1 : 0 ≤ tpos.x + fr.sz.x) (h2 : tpos.x < dst.sz.x)
    (h3 : 0 ≤ tpos.y + fr.sz.y) (h4 : tpos.y < dst.sz.y) :
    dst.bitblt src fr tpos = some { dst with
      buffer := writeRows src.buffer src.sz.x.toNat dst.sz.x.toNat
                  (min (tpos.x + fr.sz.x) dst.sz.x - max tpos.x 0).toNat
                  dst.buffer
                  (src.sz.x * (fr.pos.y + (max tpos.y 0 - tpos.y)) +
                    (fr.pos.x + (max tpos.x 0 - tpos.x))).toNat
                  (dst.sz.x * max tpos.y 0 + max tpos.x 0).toNat
                  (min (tpos.y + fr.sz.y) dst.sz.y - max tpos.y 0).toNat } := by
  obtain ⟨hS1, hS2, hS3⟩ := hwS
  obtain ⟨hD1, hD2, hD3⟩ := hwD
  have hc := hct
  simp only [Rect.contains] at hc
  obtain ⟨hc1, hc2, hc3, hc4⟩ := hc
  have hsrcLen : (src.buffer.length : Int) = src.sz.x * src.sz.y := by
    rw [hS3, Int.toNat_of_nonneg (mul_nonneg hS1 hS2)]
  have hdstLen : (dst.buffer.length : Int) = dst.sz.x * dst.sz.y := by
    rw [hD3, Int.toNat_of_nonneg (mul_nonneg hD1 hD2)]
  have hne : ¬ (tpos.x + fr.sz.x < 0 ∨ dst.sz.x ≤ tpos.x ∨
      tpos.y + fr.sz.y < 0 ∨ dst.sz.y ≤ tpos.y) := by omega
  -- the grouped slice / chunk-size conditions
  have hA : (0:Int) ≤ src.sz.x * (fr.pos.y + (max tpos.y 0 - tpos.y)) :=
    mul_nonneg hS1 (by omega)
  have hB : src.sz.x * (fr.pos.y + (max tpos.y 0 - tpos.y)) ≤
      src.sz.x * (fr.pos.y + (min (tpos.y + fr.sz.y) dst.sz.y - tpos.y)) :=
    mul_le_mul_of_nonneg_left (by omega) hS1
  have hC : src.sz.x * (fr.pos.y + (min (tpos.y + fr.sz.y) dst.sz.y - tpos.y)) ≤
      (src.buffer.length : Int) := by
    rw [hsrcLen]
    refine mul_le_mul_of_nonneg_left ?_ hS1
    omega
  have hE : (0:Int) ≤ dst.sz.x * (tpos.y + (max tpos.y 0 - tpos.y)) :=
    mul_nonneg hD1 (by omega)
  have hF : dst.sz.x * (tpos.y + (max tpos.y 0 - tpos.y)) ≤
      dst.sz.x * (tpos.y + (min (tpos.y + fr.sz.y) dst.sz.y - tpos.y)) :=
    mul_le_mul_of_nonneg_left (by omega) hD1
  have hG : dst.sz.x * (tpos.y + (min (tpos.y + fr.sz.y) dst.sz.y - tpos.y)) ≤
      (dst.buffer.length : Int) := by
    rw [hdstLen]
    exact mul_le_mul_of_nonneg_left (by omega) hD1
  have hchecks : 0 ≤ src.sz.x * (fr.pos.y + (max tpos.y 0 - tpos.y)) ∧
      src.sz.x * (fr.pos.y + (max tpos.y 0 - tpos.y)) ≤
        src.sz.x * (fr.pos.y + (min (tpos.y + fr.sz.y) dst.sz.y - tpos.y)) ∧
      src.sz.x * (fr.pos.y + (min (tpos.y + fr.sz.y) dst.sz.y - tpos.y)) ≤
        (src.buffer.length : Int) ∧ src.sz.x ≠ 0 ∧
      0 ≤ dst.sz.x * (tpos.y + (max tpos.y 0 - tpos.y)) ∧
      dst.sz.x * (tpos.y + (max tpos.y 0 - tpos.y)) ≤
        dst.sz.x * (tpos.y + (min (tpos.y + fr.sz.y) dst.sz.y - tpos.y)) ∧
      dst.sz.x * (tpos.y + (min (tpos.y + fr.sz.y) dst.sz.y - tpos.y)) ≤
        (dst.buffer.length : Int) ∧ dst.sz.x ≠ 0 :=
    ⟨hA, hB, hC, by omega, hE, hF, hG, by omega⟩
  have hdS : (src.sz.x * (fr.pos.y + (min (tpos.y + fr.sz.y) dst.sz.y - tpos.y)) -
      src.sz.x * (fr.pos.y + (max tpos.y 0 - tpos.y))) / src.sz.x
      = min (tpos.y + fr.sz.y) dst.sz.y - max tpos.y 0 := by
    rw [show src.sz.x * (fr.pos.y + (min (tpos.y + fr.sz.y) dst.sz.y - tpos.y)) -
        src.sz.x * (fr.pos.y + (max tpos.y 0 - tpos.y))
        = src.sz.x * (min (tpos.y + fr.sz.y) dst.sz.y - max tpos.y 0) from by ring]
    exact Int.mul_ediv_cancel_left _ (by omega)
  have hdD : (dst.sz.x * (tpos.y + (min (tpos.y + fr.sz.y) dst.sz.y - tpos.y)) -
      dst.sz.x * (tpos.y + (max tpos.y 0 - tpos.y))) / dst.sz.x
      = min (tpos.y + fr.sz.y) dst.sz.y - max tpos.y 0 := by
    rw [show dst.sz.x * (tpos.y + (min (tpos.y + fr.sz.y) dst.sz.y - tpos.y)) -
        dst.sz.x * (tpos.y + (max tpos.y 0 - tpos.y))
        = dst.sz.x * (min (tpos.y + fr.sz.y) dst.sz.y - max tpos.y 0) from by ring]
    exact Int.mul_ediv_cancel_left _ (by omega)
  simp only [Image.bitblt]
  rw [if_neg (not_not_intro hct), if_neg hne, if_neg (not_not_intro hchecks),
    hdS, hdD, min_self]
  rcases Nat.eq_zero_or_pos (min (tpos.y + fr.sz.y) dst.sz.y - max tpos.y 0).toNat
    with hz | hposR
  · rw [if_pos hz, hz]
    rfl
  · rw [if_neg (by omega)]
    have hcols : 0 ≤ tpos.x + (max tpos.x 0 - tpos.x) ∧
        tpos.x + (max tpos.x 0 - tpos.x) ≤
          tpos.x + (min (tpos.x + fr.sz.x) dst.sz.x - tpos.x) ∧
        tpos.x + (min (tpos.x + fr.sz.x) dst.sz.x - tpos.x) ≤ dst.sz.x ∧
        0 ≤ fr.pos.x + (max tpos.x 0 - tpos.x) ∧
        fr.pos.x + (max tpos.x 0 - tpos.x) ≤
          fr.pos.x + (min (tpos.x + fr.sz.x) dst.sz.x - tpos.x) ∧
        fr.pos.x + (min (tpos.x + fr.sz.x) dst.sz.x - tpos.x) ≤ src.sz.x := by
      omega
    rw [if_neg (not_not_intro hcols)]
    rw [show (tpos.x + (min (tpos.x + fr.sz.x) dst.sz.x - tpos.x) -
        (tpos.x + (max tpos.x 0 - tpos.x))).toNat
        = (min (tpos.x + fr.sz.x) dst.sz.x - max tpos.x 0).toNat from by omega]
    rw [show (fr.pos.x + (min (tpos.x + fr.sz.x) dst.sz.x - tpos.x) -
        (fr.pos.x + (max tpos.x 0 - tpos.x))).toNat
        = (min (tpos.x + fr.sz.x) dst.sz.x - max tpos.x 0).toNat from by omega]
    rw [min_self]
    rw [show tpos.y + (max tpos.y 0 - tpos.y) = max tpos.y 0 from by omega]
    rw [show tpos.x + (max tpos.x 0 - tpos.x) = max tpos.x 0 from by omega]

/-- Flat-index separation: a pixel of row `y` (column `x < w`) lies left of
row `Y`'s segment `[w*Y + X0, w*Y + X1)` or at/after its end, whenever it is
not inside that segment. -/
theorem rowSplit {w x y Y X0 X1 : Int} (hw : 0 < w) (hx0 : 0 ≤ x) (hx1 : x < w)
    (hX0 : 0 ≤ X0) (hX1 : X1 ≤ w)
    (hout : y ≠ Y ∨ x < X0 ∨ X1 ≤ x) :
    y * w + x < w * Y + X0 ∨ w * Y + X0 + (X1 - X0) ≤ y * w + x := by
  rcases lt_trichotomy y Y with hlt | heq | hgt
  · left
    have e1 : (y + 1) * w ≤ Y * w := mul_le_mul_of_nonneg_right (by omega) (le_of_lt hw)
    have e2 : (y + 1) * w = y * w + w := by ring
    have e3 : Y * w = w * Y := by ring
    linarith
  · subst heq
    have e3 : y * w = w * y := by ring
    rcases hout with hne | hx | hx
    · exact absurd rfl hne
    · left
      linarith
    · right
      linarith
  · right
    have e1 : (Y + 1) * w ≤ y * w := mul_le_mul_of_nonneg_right (by omega) (le_of_lt hw)
    have e2 : (Y + 1) * w = Y * w + w := by ring
    have e3 : Y * w = w * Y := by ring
    linarith

/-- Pointwise description of the row sweep of the blit, stated over an
abstract clipped destination region `[X0, X1) × [Y0, Y1)` (inside a `w`-pixel
wide, `h`-pixel tall destination) fed from the source rows starting at
source coordinate `(sx0, sy0)` with source pitch `sp`: inside the region the
destination pixel is composited with the matching source pixel, outside it
is untouched. -/
theorem writeRows_pix (sBuf dBuf : List Color) (w h sp : Int)
    (hdLen : dBuf.length = (w * h).toNat)
    (hw : 0 < w) (hsp : 0 ≤ sp)
    (X0 X1 Y0 Y1 sx0 sy0 : Int)
    (hX0 : 0 ≤ X0) (hX1 : X1 ≤ w) (hY0 : 0 ≤ Y0)
    (hsx0 : 0 ≤ sx0) (hsy0 : 0 ≤ sy0)
    (x y : Int) (hx0 : 0 ≤ x) (hx1 : x < w) (hy0 : 0 ≤ y) (hy1 : y < h) :
    (writeRows sBuf sp.toNat w.toNat (X1 - X0).toNat dBuf
        (sp * sy0 + sx0).toNat (w * Y0 + X0).toNat (Y1 - Y0).toNat).getD
      (y * w + x).toNat dColor =
      if X0 ≤ x ∧ x < X1 ∧ Y0 ≤ y ∧ y < Y1 then
        compositePixel
          (sBuf.getD ((sy0 + (y - Y0)) * sp + (sx0 + (x - X0))).toNat dColor)
          (dBuf.getD (y * w + x).toNat dColor)
      else dBuf.getD (y * w + x).toNat dColor := by
  have hKnn : (0:Int) ≤ y * w + x := add_nonneg (mul_nonneg hy0 (le_of_lt hw)) hx0
  have hKlt : y * w + x < w * h := by
    have e1 : (y + 1) * w ≤ h * w := mul_le_mul_of_nonneg_right (by omega) (le_of_lt hw)
    have e2 : (y + 1) * w = y * w + w := by ring
    have e3 : h * w = w * h := by ring
    linarith
  have hkLen : (y * w + x).toNat < dBuf.length := by
    rw [hdLen]
    omega
  have hOnn : (0:Int) ≤ w * Y0 := mul_nonneg (le_of_lt hw) hY0
  have hQnn : (0:Int) ≤ sp * sy0 := mul_nonneg hsp hsy0
  have hcastD : (((y - Y0).toNat * w.toNat : Nat) : Int)
      = ((y - Y0).toNat : Int) * w := by
    rw [Nat.cast_mul, Int.toNat_of_nonneg (le_of_lt hw)]
  have hcastS : (((y - Y0).toNat * sp.toNat : Nat) : Int)
      = ((y - Y0).toNat : Int) * sp := by
    rw [Nat.cast_mul, Int.toNat_of_nonneg hsp]
  have hLnnD : (0:Int) ≤ ((y - Y0).toNat : Int) * w :=
    mul_nonneg (Int.natCast_nonneg _) (le_of_lt hw)
  have hLnnS : (0:Int) ≤ ((y - Y0).toNat : Int) * sp :=
    mul_nonneg (Int.natCast_nonneg _) hsp
  by_cases hin : X0 ≤ x ∧ x < X1 ∧ Y0 ≤ y ∧ y < Y1
  · -- inside the clipped region
    rw [if_pos hin]
    obtain ⟨hinx0, hinx1, hiny0, hiny1⟩ := hin
    have hbD : ((y - Y0).toNat : Int) * w = y * w - w * Y0 := by
      rw [Int.toNat_of_nonneg (by omega)]
      ring
    have hbS : ((y - Y0).toNat : Int) * sp = (sy0 + (y - Y0)) * sp - sp * sy0 := by
      rw [Int.toNat_of_nonneg (by omega)]
      ring
    have hPnn : (0:Int) ≤ (sy0 + (y - Y0)) * sp := mul_nonneg (by omega) hsp
    have hm1 : (y - Y0).toNat < (Y1 - Y0).toNat := by omega
    have hh1 : (w * Y0 + X0).toNat + (y - Y0).toNat * w.toNat
        ≤ (y * w + x).toNat := by omega
    have hh2 : (y * w + x).toNat < (w * Y0 + X0).toNat
        + (y - Y0).toNat * w.toNat + (X1 - X0).toNat := by omega
    have hhc : (X1 - X0).toNat ≤ w.toNat := by omega
    have hidx : (sp * sy0 + sx0).toNat + (y - Y0).toNat * sp.toNat
        + ((y * w + x).toNat - ((w * Y0 + X0).toNat + (y - Y0).toNat * w.toNat))
        = ((sy0 + (y - Y0)) * sp + (sx0 + (x - X0))).toNat := by omega
    rw [getD_via_get?,
      writeRows_get?_inside _ _ _ _ _ _ _ _ _ ((y - Y0).toNat)
        hm1 hh1 hh2 hhc hkLen, hidx]
    rfl
  · -- outside the clipped region: the pixel is untouched
    rw [if_neg hin, getD_via_get?]
    rw [writeRows_get?_outside]
    · rw [← getD_via_get?]
    · intro i hiR
      have hiR2 : (i : Int) < Y1 - Y0 := by omega
      have hcastDi : ((i * w.toNat : Nat) : Int) = (i : Int) * w := by
        rw [Nat.cast_mul, Int.toNat_of_nonneg (le_of_lt hw)]
      have hinn : (0:Int) ≤ (i : Int) * w :=
        mul_nonneg (Int.natCast_nonneg _) (le_of_lt hw)
      have hbDi : w * (Y0 + (i : Int)) = w * Y0 + (i : Int) * w := by ring
      have hout : y ≠ Y0 + (i : Int) ∨ x < X0 ∨ X1 ≤ x := by omega
      have hsplit := rowSplit (Y := Y0 + (i : Int)) hw hx0 hx1 hX0 hX1 hout
      omega

/-- The blit, once past the early-return test and with positive pitches,
succeeds and satisfies the pointwise clipped source-over description. -/
theorem bitblt_pixel_spec (dst src : Image) (fr : Rect) (tpos : Vec2i)
    (hwS : src.wf) (hwD : dst.wf) (hfx : 0 ≤ fr.sz.x) (hfy : 0 ≤ fr.sz.y)
    (hct : Rect.contains ⟨⟨0, 0⟩, src.sz⟩ fr)
    (hpS : 0 < src.sz.x) (hpD : 0 < dst.sz.x)
    (h1 : 0 ≤ tpos.x + fr.sz.x) (h2 : tpos.x < dst.sz.x)
    (h3 : 0 ≤ tpos.y + fr.sz.y) (h4 : tpos.y < dst.sz.y) :
    ∃ out, dst.bitblt src fr tpos = some out ∧ out.sz = dst.sz ∧
      out.buffer.length = dst.buffer.length ∧
      ∀ x y : Int, 0 ≤ x → x < dst.sz.x → 0 ≤ y → y < dst.sz.y →
        out.pix x y =
          if max tpos.x 0 ≤ x ∧ x < min (tpos.x + fr.sz.x) dst.sz.x ∧
             max tpos.y 0 ≤ y ∧ y < min (tpos.y + fr.sz.y) dst.sz.y then
            compositePixel
              (src.pix (fr.pos.x + (x - tpos.x)) (fr.pos.y + (y - tpos.y)))
              (dst.pix x y)
          else dst.pix x y := by
  refine ⟨_, bitblt_eq_writeRows dst src fr tpos hwS hwD hfx hfy hct hpS hpD
    h1 h2 h3 h4, rfl, writeRows_length _ _ _ _ _ _ _ _, ?_⟩
  intro x y hx0 hx1 hy0 hy1
  obtain ⟨hS1, hS2, hS3⟩ := hwS
  obtain ⟨hD1, hD2, hD3⟩ := hwD
  have hc := hct
  simp only [Rect.contains] at hc
  obtain ⟨hc1, hc2, hc3, hc4⟩ := hc
  have key := writeRows_pix src.buffer dst.buffer dst.sz.x dst.sz.y src.sz.x
    hD3 hpD hS1
    (max tpos.x 0) (min (tpos.x + fr.sz.x) dst.sz.x)
    (max tpos.y 0) (min (tpos.y + fr.sz.y) dst.sz.y)
    (fr.pos.x + (max tpos.x 0 - tpos.x)) (fr.pos.y + (max tpos.y 0 - tpos.y))
    (le_max_right _ _) (min_le_right _ _) (le_max_right _ _)
    (by omega) (by omega)
    x y hx0 hx1 hy0 hy1
  rw [show fr.pos.y + (max tpos.y 0 - tpos.y) + (y - max tpos.y 0)
      = fr.pos.y + (y - tpos.y) from by omega,
    show fr.pos.x + (max tpos.x 0 - tpos.x) + (x - max tpos.x 0)
      = fr.pos.x + (x - tpos.x) from by omega] at key
  simp only [Image.pix]
  exact key


/-- Claim C1 — the code evaluated at the failing input.  Non-looping clip of
two frames, speed divisor 1, fresh cursor: the first tick returns the second
frame, and the next tick indexes `frames[2]` past the end and panics
(`none`) instead of holding the last frame. -/
theorem tick_past_end_panics :
    AnimationState.tick
        ⟨0, 0, 0, ⟨[⟨⟨0, 0⟩, ⟨1, 1⟩⟩, ⟨⟨1, 0⟩, ⟨1, 1⟩⟩], [1, 1], false⟩⟩ 1
      = some (⟨⟨1, 0⟩, ⟨1, 1⟩⟩,
          ⟨0, 1, 0, ⟨[⟨⟨0, 0⟩, ⟨1, 1⟩⟩, ⟨⟨1, 0⟩, ⟨1, 1⟩⟩], [1, 1], false⟩⟩) ∧
    AnimationState.tick
        ⟨0, 1, 0, ⟨[⟨⟨0, 0⟩, ⟨1, 1⟩⟩, ⟨⟨1, 0⟩, ⟨1, 1⟩⟩], [1, 1], false⟩⟩ 1
      = none := by
  decide

/-- Claim C5 — the code evaluated at the failing input.  Looking up or
playing an action absent from the catalog runs `Option::unwrap` on `None`
and panics (`none`); no typed UnknownAction error exists in the code. -/
theorem unknown_action_unwrap_panics :
    AnimationSet.get_animation ⟨0, ⟨[], ⟨0, 0⟩⟩, []⟩ 0 = none ∧
    AnimationSet.play_animation ⟨0, ⟨[], ⟨0, 0⟩⟩, []⟩ 0 = none := by
  decide

/-- Claim C6 — the code evaluated at the failing input.  On a 2×2 buffer,
`hline(0, 2, 0, c)` with `x1 = width = 2` trips `assert!(x1 < self.sz.x)`
and panics, although the spec's precondition `x1 ≤ width` admits it and the
fill `[x0, x1)` itself would stay in bounds. -/
theorem hline_full_width_asserts :
    Image.hline ⟨List.replicate 4 ⟨0, 0, 0, 255⟩, ⟨2, 2⟩⟩ 0 2 0 ⟨1, 1, 1, 255⟩
      = none ∧
    Image.hline ⟨List.replicate 4 ⟨0, 0, 0, 255⟩, ⟨2, 2⟩⟩ 0 1 0 ⟨1, 1, 1, 255⟩
      = some ⟨[⟨1, 1, 1, 255⟩, ⟨0, 0, 0, 255⟩, ⟨0, 0, 0, 255⟩, ⟨0, 0, 0, 255⟩],
          ⟨2, 2⟩⟩ := by
  decide

/-- Claim C8 — the code evaluated at failing inputs.  `current_frame` with a
zero speed divisor panics with an unchecked division by zero (`none`); the
code carries no typed InvalidSpeed error. -/
theorem current_frame_zero_divisor_panics (a : Animation) (start now : Nat) :
    a.current_frame start now 0 = none := by
  unfold Animation.current_frame
  split_ifs <;> simp_all

/-- Claim C9: every reachable cursor state satisfies
`start_time ≤ now` — `play_animation` produces `start_time = now = 0`, and a
`tick` that returns normally preserves the invariant (on the loop-restart
branch with a positive `start_time` the subsequent `current_frame` lookup
panics before a state is returned, so every returned state satisfies it). -/
theorem cursor_invariant :
    (∀ (s : AnimationSet) (a : Action) (st : AnimationState),
        s.play_animation a = some st →
        st.start_time = 0 ∧ st.now = 0 ∧ st.start_time ≤ st.now) ∧
    (∀ (st : AnimationState) (sd : Nat) (r : Rect) (st' : AnimationState),
        1 ≤ sd → st.start_time ≤ st.now →
        st.tick sd = some (r, st') → st'.start_time ≤ st'.now) := by
  constructor
  · intro s a st h
    unfold AnimationSet.play_animation at h
    rcases hl : List.lookup a s.animations with _ | anim <;> rw [hl] at h
    · exact Option.noConfusion h
    · simp only [Option.map_some'] at h
      injection h with h
      rw [← h]
      exact ⟨rfl, rfl, le_refl 0⟩
  · intro st sd r st' hsd hinv htick
    simp only [AnimationState.tick] at htick
    rcases hfin : st.animation.is_finished st.start_time (st.now + 1) sd
      with _ | fin
    · simp only [hfin] at htick
      exact Option.noConfusion htick
    · simp only [hfin] at htick
      rcases hcur : st.animation.current_frame st.start_time
          (if (fin && st.animation.loops) = true then 0 else st.now + 1) sd
        with _ | r2
      · simp only [hcur] at htick
        exact Option.noConfusion htick
      · simp only [hcur] at htick
        injection htick with htick
        rw [Prod.mk.injEq] at htick
        obtain ⟨hr, hst⟩ := htick
        have hs1 : st'.start_time = st.start_time := by rw [← hst]
        have hs2 : st'.now
            = (if (fin && st.animation.loops) = true then 0 else st.now + 1) := by
          rw [← hst]
        cases hb : (fin && st.animation.loops)
        · rw [hb] at hs2 hcur
          simp only [Bool.false_eq_true, if_false] at hs2 hcur
          unfold Animation.current_frame at hcur
          split_ifs at hcur with hlt hz
          all_goals first | exact Option.noConfusion hcur | omega
        · rw [hb] at hs2 hcur
          simp only [eq_self_iff_true, if_true] at hs2 hcur
          unfold Animation.current_frame at hcur
          split_ifs at hcur with hlt hz
          all_goals first | exact Option.noConfusion hcur | omega

/-- Claim C9 — witness: a fresh cursor from `play_animation` satisfies the
invariant, and so does the state a looping one-frame clip reaches through
`tick` (which resets `now` to 0 from `start_time = 0`). -/
theorem cursor_invariant_witness :
    ((⟨0, 0, 0, ⟨[⟨⟨0, 0⟩, ⟨1, 1⟩⟩], [1], true⟩⟩ : AnimationState).start_time = 0 ∧
     (⟨0, 0, 0, ⟨[⟨⟨0, 0⟩, ⟨1, 1⟩⟩], [1], true⟩⟩ : AnimationState).now = 0 ∧
     (⟨0, 0, 0, ⟨[⟨⟨0, 0⟩, ⟨1, 1⟩⟩], [1], true⟩⟩ : AnimationState).start_time ≤
       (⟨0, 0, 0, ⟨[⟨⟨0, 0⟩, ⟨1, 1⟩⟩], [1], true⟩⟩ : AnimationState).now) ∧
    (⟨0, 0, 0, ⟨[⟨⟨0, 0⟩, ⟨1, 1⟩⟩], [1], true⟩⟩ : AnimationState).start_time ≤
      (⟨0, 0, 0, ⟨[⟨⟨0, 0⟩, ⟨1, 1⟩⟩], [1], true⟩⟩ : AnimationState).now :=
  ⟨cursor_invariant.1 ⟨0, ⟨[], ⟨0, 0⟩⟩, [(0, ⟨[⟨⟨0, 0⟩, ⟨1, 1⟩⟩], [1], true⟩)]⟩
      0 ⟨0, 0, 0, ⟨[⟨⟨0, 0⟩, ⟨1, 1⟩⟩], [1], true⟩⟩ rfl,
    cursor_invariant.2 ⟨0, 0, 0, ⟨[⟨⟨0, 0⟩, ⟨1, 1⟩⟩], [1], true⟩⟩ 1
      ⟨⟨0, 0⟩, ⟨1, 1⟩⟩ ⟨0, 0, 0, ⟨[⟨⟨0, 0⟩, ⟨1, 1⟩⟩], [1], true⟩⟩
      (by decide) (by decide) rfl⟩
/-- Claim C2 (amended: both buffers must have positive width, else the
`chunks_exact` chunk size is zero and the call panics).  For every placement
satisfying one of the four off-screen conditions — including the boundary
cases `tpos.x + fr.sz.x = 0` / `tpos.y + fr.sz.y = 0` that the strict
early-return test does not cover — `bitblt` returns with the destination
byte-for-byte unchanged. -/
theorem bitblt_offscreen_noop (dst src : Image) (fr : Rect) (tpos : Vec2i)
    (hwS : src.wf) (hwD : dst.wf) (hfx : 0 ≤ fr.sz.x) (hfy : 0 ≤ fr.sz.y)
    (hct : Rect.contains ⟨⟨0, 0⟩, src.sz⟩ fr)
    (hpS : 0 < src.sz.x) (hpD : 0 < dst.sz.x)
    (hoff : tpos.x + fr.sz.x ≤ 0 ∨ dst.sz.x ≤ tpos.x ∨
            tpos.y + fr.sz.y ≤ 0 ∨ dst.sz.y ≤ tpos.y) :
    dst.bitblt src fr tpos = some dst := by
  by_cases hearly : tpos.x + fr.sz.x < 0 ∨ dst.sz.x ≤ tpos.x ∨
      tpos.y + fr.sz.y < 0 ∨ dst.sz.y ≤ tpos.y
  · simp only [Image.bitblt]
    rw [if_neg (not_not_intro hct), if_pos hearly]
  · obtain ⟨hD1, hD2, hD3⟩ := hwD
    rw [bitblt_eq_writeRows dst src fr tpos hwS ⟨hD1, hD2, hD3⟩ hfx hfy hct hpS hpD
      (by omega) (by omega) (by omega) (by omega)]
    rcases (by omega : tpos.x + fr.sz.x = 0 ∨ tpos.y + fr.sz.y = 0) with hx | hy
    · rw [show (min (tpos.x + fr.sz.x) dst.sz.x - max tpos.x 0).toNat = 0 from
        by omega]
      rw [writeRows_zero_cols]
    · rw [show (min (tpos.y + fr.sz.y) dst.sz.y - max tpos.y 0).toNat = 0 from
        by omega]
      rfl

/-- Claim C2 — counterexample to the unamended claim.  A zero-width source
buffer (legal per the data model: `0 * 4` pixels) with a contained zero-width
`from` rectangle placed at the boundary `to.x + from.size.x = 0`: the claim's
off-screen condition holds, yet `bitblt` panics (`chunks_exact` with chunk
size 0) instead of leaving the destination unchanged. -/
theorem bitblt_noop_boundary_panics :
    Image.wf ⟨[], ⟨0, 4⟩⟩ ∧
    Image.wf ⟨List.replicate 16 ⟨0, 0, 0, 255⟩, ⟨4, 4⟩⟩ ∧
    Rect.contains ⟨⟨0, 0⟩, (⟨[], ⟨0, 4⟩⟩ : Image).sz⟩ ⟨⟨0, 0⟩, ⟨0, 2⟩⟩ ∧
    (⟨0, 0⟩ : Vec2i).x + (⟨⟨0, 0⟩, ⟨0, 2⟩⟩ : Rect).sz.x ≤ 0 ∧
    Image.bitblt ⟨List.replicate 16 ⟨0, 0, 0, 255⟩, ⟨4, 4⟩⟩ ⟨[], ⟨0, 4⟩⟩
      ⟨⟨0, 0⟩, ⟨0, 2⟩⟩ ⟨0, 0⟩ = none := by
  decide

/-- Claim C2 — witness for the amended no-op theorem at the uncovered
boundary `to.x + from.size.x = 0`: a full 2×2 source placed at `(-2, 0)`. -/
theorem bitblt_offscreen_noop_witness :
    Image.bitblt ⟨List.replicate 4 ⟨3, 4, 5, 255⟩, ⟨2, 2⟩⟩
        ⟨List.replicate 4 ⟨9, 9, 9, 255⟩, ⟨2, 2⟩⟩
        ⟨⟨0, 0⟩, ⟨2, 2⟩⟩ ⟨-2, 0⟩
      = some ⟨List.replicate 4 ⟨3, 4, 5, 255⟩, ⟨2, 2⟩⟩ :=
  bitblt_offscreen_noop _ _ _ _ (by decide) (by decide) (by decide) (by decide)
    (by decide) (by decide) (by decide) (Or.inl (by decide))

/-- Claim C10 (amended: both buffers must have positive width).  For
well-formed buffers and a contained non-negative `from` rectangle, every
placement — however far off screen — keeps all slice ranges of `bitblt`
in bounds and the call returns normally. -/
theorem bitblt_inbounds_total (dst src : Image) (fr : Rect) (tpos : Vec2i)
    (hwS : src.wf) (hwD : dst.wf) (hfx : 0 ≤ fr.sz.x) (hfy : 0 ≤ fr.sz.y)
    (hct : Rect.contains ⟨⟨0, 0⟩, src.sz⟩ fr)
    (hpS : 0 < src.sz.x) (hpD : 0 < dst.sz.x) :
    (dst.bitblt src fr tpos).isSome := by
  by_cases hearly : tpos.x + fr.sz.x < 0 ∨ dst.sz.x ≤ tpos.x ∨
      tpos.y + fr.sz.y < 0 ∨ dst.sz.y ≤ tpos.y
  · simp only [Image.bitblt]
    rw [if_neg (not_not_intro hct), if_pos hearly]
    rfl
  · rw [bitblt_eq_writeRows dst src fr tpos hwS hwD hfx hfy hct hpS hpD
      (by omega) (by omega) (by omega) (by omega)]
    rfl

/-- Claim C10 — counterexample to the unamended claim.  A zero-width source
buffer satisfies every hypothesis of the claim (length `0 = 0 * 2`,
non-negative sizes, contained `from` rectangle), yet `bitblt` does not
return normally: the row loop is reached and `chunks_exact` panics on the
zero chunk size. -/
theorem bitblt_zero_width_panics :
    Image.wf ⟨[], ⟨0, 2⟩⟩ ∧
    Image.wf ⟨List.replicate 16 ⟨1, 2, 3, 255⟩, ⟨4, 4⟩⟩ ∧
    Rect.contains ⟨⟨0, 0⟩, (⟨[], ⟨0, 2⟩⟩ : Image).sz⟩ ⟨⟨0, 0⟩, ⟨0, 1⟩⟩ ∧
    Image.bitblt ⟨List.replicate 16 ⟨1, 2, 3, 255⟩, ⟨4, 4⟩⟩ ⟨[], ⟨0, 2⟩⟩
      ⟨⟨0, 0⟩, ⟨0, 1⟩⟩ ⟨0, 0⟩ = none := by
  decide

/-- Claim C10 — witness: a partially overlapping 2×2 blit at `(1, 1)`
returns normally. -/
theorem bitblt_inbounds_total_witness :
    (Image.bitblt ⟨List.replicate 4 ⟨3, 4, 5, 255⟩, ⟨2, 2⟩⟩
        ⟨List.replicate 4 ⟨9, 9, 9, 255⟩, ⟨2, 2⟩⟩
        ⟨⟨0, 0⟩, ⟨2, 2⟩⟩ ⟨1, 1⟩).isSome :=
  bitblt_inbounds_total _ _ _ _ (by decide) (by decide) (by decide) (by decide)
    (by decide) (by decide) (by decide)
/-- With a fully opaque source pixel (`a = 255`, so `fa = 1`), source-over
degenerates to replacement: each channel adds a rounded `d * 0 = 0` and the
alpha becomes `round(1 * 255) = 255`. -/
theorem compositePixel_opaque (f t : Color) (ha : f.a = 255)
    (hr : f.r ≤ 255) (hg : f.g ≤ 255) (hb : f.b ≤ 255) :
    compositePixel f t = f := by
  have h0 : ∀ c : Nat, u8ofQ ((c : ℚ) * (1 - (255 : ℚ) / 255)) = 0 := by
    intro c
    unfold u8ofQ roundQ
    norm_num
  have hA : u8ofQ (((255 : ℚ) / 255 + (t.a : ℚ) / 255 * (1 - (255 : ℚ) / 255)) * 255)
      = 255 := by
    unfold u8ofQ roundQ
    norm_num
    rfl
  cases f with
  | mk fr fg fb fa =>
    simp only at ha hr hg hb
    subst ha
    simp only [compositePixel, satAdd]
    push_cast
    rw [h0, h0, h0, hA]
    simp only [Nat.add_zero]
    congr 1 <;> omega

/-- Claim C3: a blit whose placed rectangle has a non-empty intersection
with the destination writes exactly the pixels
`(tpos.x + x_skip + j, tpos.y + y_skip + i)` for `j < x_count - x_skip`,
`i < y_count - y_skip` (`x_skip = max 0 (-tpos.x)`,
`x_count = min (tpos.x + fr.sz.x) dst.sz.x - tpos.x`, and the y analogues),
each composited with source pixel
`(fr.pos.x + x_skip + j, fr.pos.y + y_skip + i)`, and leaves every other
destination pixel unchanged. -/
theorem bitblt_clip_exact (dst src : Image) (fr : Rect) (tpos : Vec2i)
    (hwS : src.wf) (hwD : dst.wf)
    (hct : Rect.contains ⟨⟨0, 0⟩, src.sz⟩ fr)
    (hfx : 0 < fr.sz.x) (hfy : 0 < fr.sz.y)
    (hdx : 0 < dst.sz.x) (hdy : 0 < dst.sz.y)
    (hi1 : 0 < tpos.x + fr.sz.x) (hi2 : tpos.x < dst.sz.x)
    (hi3 : 0 < tpos.y + fr.sz.y) (hi4 : tpos.y < dst.sz.y) :
    ∃ out, dst.bitblt src fr tpos = some out ∧ out.sz = dst.sz ∧
      (∀ i j : Int, 0 ≤ i →
          i < (min (tpos.y + fr.sz.y) dst.sz.y - tpos.y) - max 0 (-tpos.y) →
          0 ≤ j →
          j < (min (tpos.x + fr.sz.x) dst.sz.x - tpos.x) - max 0 (-tpos.x) →
          out.pix (tpos.x + max 0 (-tpos.x) + j) (tpos.y + max 0 (-tpos.y) + i)
            = compositePixel
                (src.pix (fr.pos.x + max 0 (-tpos.x) + j)
                  (fr.pos.y + max 0 (-tpos.y) + i))
                (dst.pix (tpos.x + max 0 (-tpos.x) + j)
                  (tpos.y + max 0 (-tpos.y) + i))) ∧
      (∀ x y : Int, 0 ≤ x → x < dst.sz.x → 0 ≤ y → y < dst.sz.y →
          ¬(tpos.x + max 0 (-tpos.x) ≤ x ∧
            x < tpos.x + (min (tpos.x + fr.sz.x) dst.sz.x - tpos.x) ∧
            tpos.y + max 0 (-tpos.y) ≤ y ∧
            y < tpos.y + (min (tpos.y + fr.sz.y) dst.sz.y - tpos.y)) →
          out.pix x y = dst.pix x y) := by
  have hc := hct
  simp only [Rect.contains] at hc
  obtain ⟨hc1, hc2, hc3, hc4⟩ := hc
  have hpS : 0 < src.sz.x := by omega
  obtain ⟨out, heq, hsz, hlen, hpt⟩ := bitblt_pixel_spec dst src fr tpos hwS hwD
    (le_of_lt hfx) (le_of_lt hfy) hct hpS hdx (le_of_lt hi1) hi2 (le_of_lt hi3) hi4
  refine ⟨out, heq, hsz, ?_, ?_⟩
  · intro i j hi0 hiR hj0 hjR
    have hx0 : 0 ≤ tpos.x + max 0 (-tpos.x) + j := by omega
    have hx1 : tpos.x + max 0 (-tpos.x) + j < dst.sz.x := by omega
    have hy0 : 0 ≤ tpos.y + max 0 (-tpos.y) + i := by omega
    have hy1 : tpos.y + max 0 (-tpos.y) + i < dst.sz.y := by omega
    have hpx := hpt (tpos.x + max 0 (-tpos.x) + j) (tpos.y + max 0 (-tpos.y) + i)
      hx0 hx1 hy0 hy1
    rw [if_pos ⟨by omega, by omega, by omega, by omega⟩,
      show fr.pos.x + (tpos.x + max 0 (-tpos.x) + j - tpos.x)
        = fr.pos.x + max 0 (-tpos.x) + j from by omega,
      show fr.pos.y + (tpos.y + max 0 (-tpos.y) + i - tpos.y)
        = fr.pos.y + max 0 (-tpos.y) + i from by omega] at hpx
    exact hpx
  · intro x y hx0 hx1 hy0 hy1 hnot
    have hpx := hpt x y hx0 hx1 hy0 hy1
    rw [if_neg (by omega)] at hpx
    exact hpx

/-- Claim C3 — witness: a 2×2 source placed at `(-1, -1)` over a 2×2
destination (skips 1, counts 2 on both axes) blits successfully. -/
theorem bitblt_clip_exact_witness :
    (Image.bitblt ⟨List.replicate 4 ⟨3, 4, 5, 255⟩, ⟨2, 2⟩⟩
        ⟨[⟨10, 0, 0, 255⟩, ⟨20, 0, 0, 255⟩, ⟨30, 0, 0, 255⟩, ⟨40, 0, 0, 255⟩],
          ⟨2, 2⟩⟩
        ⟨⟨0, 0⟩, ⟨2, 2⟩⟩ ⟨-1, -1⟩).isSome := by
  obtain ⟨out, heq, -, -⟩ := bitblt_clip_exact
    ⟨List.replicate 4 ⟨3, 4, 5, 255⟩, ⟨2, 2⟩⟩
    ⟨[⟨10, 0, 0, 255⟩, ⟨20, 0, 0, 255⟩, ⟨30, 0, 0, 255⟩, ⟨40, 0, 0, 255⟩], ⟨2, 2⟩⟩
    ⟨⟨0, 0⟩, ⟨2, 2⟩⟩ ⟨-1, -1⟩ (by decide) (by decide) (by decide) (by decide)
    (by decide) (by decide) (by decide) (by decide) (by decide) (by decide)
    (by decide)
  rw [heq]
  rfl

/-- Claim C4: a fully opaque source pixel (`a = 255`) blitted fully on
screen replaces the destination pixel exactly, whatever the destination
held before. -/
theorem bitblt_opaque_replaces (dst src : Image) (fr : Rect) (tpos : Vec2i)
    (i j : Int)
    (hwS : src.wf) (hwD : dst.wf)
    (hct : Rect.contains ⟨⟨0, 0⟩, src.sz⟩ fr)
    (hon1 : 0 ≤ tpos.x) (hon2 : 0 ≤ tpos.y)
    (hon3 : tpos.x + fr.sz.x ≤ dst.sz.x) (hon4 : tpos.y + fr.sz.y ≤ dst.sz.y)
    (hj0 : 0 ≤ j) (hj1 : j < fr.sz.x) (hi0 : 0 ≤ i) (hi1 : i < fr.sz.y)
    (hA : (src.pix (fr.pos.x + j) (fr.pos.y + i)).a = 255)
    (hR : (src.pix (fr.pos.x + j) (fr.pos.y + i)).r ≤ 255)
    (hG : (src.pix (fr.pos.x + j) (fr.pos.y + i)).g ≤ 255)
    (hB : (src.pix (fr.pos.x + j) (fr.pos.y + i)).b ≤ 255) :
    ∃ out, dst.bitblt src fr tpos = some out ∧
      out.pix (tpos.x + j) (tpos.y + i)
        = src.pix (fr.pos.x + j) (fr.pos.y + i) := by
  have hc := hct
  simp only [Rect.contains] at hc
  obtain ⟨hc1, hc2, hc3, hc4⟩ := hc
  have hpS : 0 < src.sz.x := by omega
  have hdx : 0 < dst.sz.x := by omega
  obtain ⟨out, heq, hsz, hlen, hpt⟩ := bitblt_pixel_spec dst src fr tpos hwS hwD
    (by omega) (by omega) hct hpS hdx (by omega) (by omega) (by omega) (by omega)
  refine ⟨out, heq, ?_⟩
  have hpx := hpt (tpos.x + j) (tpos.y + i) (by omega) (by omega) (by omega)
    (by omega)
  rw [if_pos ⟨by omega, by omega, by omega, by omega⟩,
    show fr.pos.x + (tpos.x + j - tpos.x) = fr.pos.x + j from by omega,
    show fr.pos.y + (tpos.y + i - tpos.y) = fr.pos.y + i from by omega,
    compositePixel_opaque _ _ hA hR hG hB] at hpx
  exact hpx

/-- Claim C4 — witness: an opaque `(7,8,9,255)` source pixel replaces a
`(5,5,5,123)` destination pixel exactly. -/
theorem bitblt_opaque_replaces_witness :
    ∃ out, Image.bitblt ⟨[⟨5, 5, 5, 123⟩], ⟨1, 1⟩⟩ ⟨[⟨7, 8, 9, 255⟩], ⟨1, 1⟩⟩
        ⟨⟨0, 0⟩, ⟨1, 1⟩⟩ ⟨0, 0⟩ = some out ∧
      out.pix ((⟨0, 0⟩ : Vec2i).x + 0) ((⟨0, 0⟩ : Vec2i).y + 0)
        = Image.pix ⟨[⟨7, 8, 9, 255⟩], ⟨1, 1⟩⟩
            ((⟨⟨0, 0⟩, ⟨1, 1⟩⟩ : Rect).pos.x + 0)
            ((⟨⟨0, 0⟩, ⟨1, 1⟩⟩ : Rect).pos.y + 0) :=
  bitblt_opaque_replaces ⟨[⟨5, 5, 5, 123⟩], ⟨1, 1⟩⟩ ⟨[⟨7, 8, 9, 255⟩], ⟨1, 1⟩⟩
    ⟨⟨0, 0⟩, ⟨1, 1⟩⟩ ⟨0, 0⟩ 0 0 (by decide) (by decide) (by decide) (by decide)
    (by decide) (by decide) (by decide) (by decide) (by decide) (by decide)
    (by decide) (by decide) (by decide) (by decide) (by decide)
/-- `rowFillLoop` succeeds when every one of its `n` rows has an in-buffer
flat range; `fillRange` keeps the length, so the bound is stable. -/
theorem rowFillLoop_isSome (c : Color) (w px sx : Int) (buf : List Color)
    (y0 : Int) (n : Nat)
    (h : ∀ t : Nat, t < n →
        0 ≤ (y0 + t) * w + px ∧ 0 ≤ sx ∧
        (y0 + t) * w + px + sx ≤ (buf.length : Int)) :
    (rowFillLoop c w px sx buf y0 n).isSome := by
  induction n generalizing buf y0 with
  | zero => rfl
  | succ n ih =>
    obtain ⟨ha, hsx, hb⟩ := h 0 (by omega)
    simp only [Nat.cast_zero, add_zero] at ha hb
    rw [rowFillLoop]
    rw [if_pos ⟨by omega, by omega, by omega⟩]
    apply ih
    intro t ht
    obtain ⟨ha2, -, hb2⟩ := h (t + 1) (by omega)
    rw [fillRange_length]
    refine ⟨?_, hsx, ?_⟩
    · rw [show y0 + 1 + (t : Int) = y0 + ((t : Int) + 1) from by ring]
      rw [show ((t : Int) + 1) = ((t + 1 : Nat) : Int) from by push_cast; ring]
      exact ha2
    · rw [show y0 + 1 + (t : Int) = y0 + ((t : Int) + 1) from by ring]
      rw [show ((t : Int) + 1) = ((t + 1 : Nat) : Int) from by push_cast; ring]
      exact hb2

/-- Claim C7 — counterexample.  `draw_rect` performs no bounds check: on a
4×4 buffer the rectangle at `(2, 0)` of size `4×1` overruns the row width
(`2 + 4 > 4`), yet the call completes silently (no OutOfBounds failure) and
writes the pixel `(0, 1)`, which lies outside the requested rectangle. -/
theorem draw_rect_silent_oob :
    ¬ Rect.contains ⟨⟨0, 0⟩, (⟨List.replicate 16 ⟨0, 0, 0, 255⟩, ⟨4, 4⟩⟩ : Image).sz⟩
        ⟨⟨2, 0⟩, ⟨4, 1⟩⟩ ∧
    (Image.draw_rect ⟨List.replicate 16 ⟨0, 0, 0, 255⟩, ⟨4, 4⟩⟩
        ⟨⟨2, 0⟩, ⟨4, 1⟩⟩ ⟨9, 9, 9, 255⟩).isSome ∧
    (Image.draw_rect ⟨List.replicate 16 ⟨0, 0, 0, 255⟩, ⟨4, 4⟩⟩
        ⟨⟨2, 0⟩, ⟨4, 1⟩⟩ ⟨9, 9, 9, 255⟩).map (fun r => r.pix 0 1)
      = some ⟨9, 9, 9, 255⟩ ∧
    Image.pix ⟨List.replicate 16 ⟨0, 0, 0, 255⟩, ⟨4, 4⟩⟩ 0 1 ≠ ⟨9, 9, 9, 255⟩ ∧
    ¬((⟨⟨2, 0⟩, ⟨4, 1⟩⟩ : Rect).pos.x ≤ 0 ∧
      0 < (⟨⟨2, 0⟩, ⟨4, 1⟩⟩ : Rect).pos.x + (⟨⟨2, 0⟩, ⟨4, 1⟩⟩ : Rect).sz.x ∧
      (⟨⟨2, 0⟩, ⟨4, 1⟩⟩ : Rect).pos.y ≤ 1 ∧
      1 < (⟨⟨2, 0⟩, ⟨4, 1⟩⟩ : Rect).pos.y + (⟨⟨2, 0⟩, ⟨4, 1⟩⟩ : Rect).sz.y) := by
  refine ⟨by decide, ?_, by decide, by decide, by decide⟩
  decide

/-- Claim C7 (amended).  `fill_rect` checks no bounds at all: whenever each
row's computed flat index range `[y*w + pos.x, y*w + pos.x + sz.x)` lies
within the buffer, the call completes silently — even for a rectangle that
is not contained in the buffer bounds (which then writes pixels outside the
requested rectangle, as the counterexample shows); it never fails with a
typed OutOfBounds error. -/
theorem draw_rect_unchecked_total (img : Image) (rect : Rect) (c : Color)
    (hnc : ¬ Rect.contains ⟨⟨0, 0⟩, img.sz⟩ rect)
    (h : ∀ y : Int, rect.pos.y ≤ y → y < rect.pos.y + rect.sz.y →
        0 ≤ y * img.sz.x + rect.pos.x ∧ 0 ≤ rect.sz.x ∧
        y * img.sz.x + rect.pos.x + rect.sz.x ≤ (img.buffer.length : Int)) :
    (img.draw_rect rect c).isSome := by
  unfold Image.draw_rect
  have hs := rowFillLoop_isSome c img.sz.x rect.pos.x rect.sz.x img.buffer
    rect.pos.y rect.sz.y.toNat
    (fun t ht => h (rect.pos.y + t) (by omega) (by omega))
  rcases hrf : rowFillLoop c img.sz.x rect.pos.x rect.sz.x img.buffer
      rect.pos.y rect.sz.y.toNat with _ | b
  · rw [hrf] at hs
    exact absurd hs (by simp)
  · rfl

/-- Claim C7 — witness: a rectangle overrunning the row width of a 4×4
buffer (flat ranges still inside) completes without any failure. -/
theorem draw_rect_unchecked_total_witness :
    (Image.draw_rect ⟨List.replicate 16 ⟨0, 0, 0, 255⟩, ⟨4, 4⟩⟩
        ⟨⟨2, 1⟩, ⟨4, 1⟩⟩ ⟨9, 9, 9, 255⟩).isSome :=
  draw_rect_unchecked_total _ _ _ (by decide)
    (by intro y hy1 hy2; simp at hy1 hy2 ⊢; omega)
end Engine
